import Mathlib

/-!
# Verification development for `query.go`

A shallow embedding of the word-query program (`src/query.go`): the stateful
split predicate returned by `MakeFieldsFunc`, the position index built by
`Query`, the gap transform `Difference`, the circular palette accessor
`Colors.Elt` and the highlight spans computed by `ColorWords`.

Modelling conventions.

* A Go string is modelled by the list of the runes it decodes to
  (`Str = List Char`); the texts considered are the valid UTF-8 ones. Byte
  offsets are recovered from the UTF-8 length of each rune (`utf8Len`).
* Go's `int` is modelled by `Int`, with the 64-bit two's-complement wrap
  `wrapInt` applied where the source subtracts.
* A Go `map[string][]int` is modelled by an association list with distinct
  keys (`GoMap`), read with `GoMap.get` and written with `GoMap.set`. The
  order in which `range` visits a map is the order of the list; the results
  are stated through `GoMap.get` and do not depend on it.
* A run-time panic is modelled by `none` (or `Result.panic`).
* File access is outside the embedding: `Query` and `ColorWords` take the
  bytes read from the file as an argument, and `ColorWords` returns the format
  tags it hands to the text field.
* The library functions `strings.FieldsFunc`, `regexp.MustCompile`,
  `(*Regexp).FindAllStringIndex` and `utf8.RuneCountInString` are modelled
  from the Go standard library: `FieldsFunc` by its loop, the regular
  expressions for the patterns made of literal runes, `.` and bracket classes
  of plain runes (`Result.unsupported` marks a pattern outside this part).
-/

namespace QueryGo

/-- A Go string, as the sequence of runes it decodes to. -/
abbrev Str := List Char

/-! ## The split predicate (`MakeFieldsFunc`) -/

/-- The variables captured by the closure that `MakeFieldsFunc` returns. -/
structure FieldsState where
  lastSeen : Char
  sep : Bool
deriving DecidableEq, Repr

/-- The local helper `isSpace` of `MakeFieldsFunc`. -/
def isSpace (r : Char) : Bool :=
  if r = ' ' ∨ r = '\n' ∨ r = '\r' then true else false

/-- The Arabic letter waw, U+0648. -/
def waw : Char := 'و'

/-- The values of `lastSeen` and `sep` when `MakeFieldsFunc` returns. -/
def MakeFieldsFunc : FieldsState := ⟨'.', false⟩

/-- One call of the closure `f` of `MakeFieldsFunc`: the answer, and the
captured variables after the call (the deferred assignment sets `lastSeen`
to `r` on every path). -/
def MakeFieldsFunc.f (st : FieldsState) (r : Char) : Bool × FieldsState :=
  if r = '(' then (true, ⟨r, true⟩)
  else if r = ')' then (true, ⟨r, false⟩)
  else if st.sep then (true, ⟨r, st.sep⟩)
  else if isSpace r || (r == waw && isSpace st.lastSeen) then (true, ⟨r, st.sep⟩)
  else (false, ⟨r, st.sep⟩)

/-- The loop of `strings.FieldsFunc`: the predicate is called once per rune,
left to right; `cur` holds, reversed, the runes of the field being read
(empty when the scan is between fields, `start < 0` in the library). -/
def FieldsFunc.loop {σ : Type} (f : σ → Char → Bool × σ) :
    σ → List Char → List Char → List Str
  | _, [], cur => if cur = [] then [] else [cur.reverse]
  | st, r :: rs, cur =>
    if (f st r).1 then
      if cur = [] then FieldsFunc.loop f (f st r).2 rs []
      else cur.reverse :: FieldsFunc.loop f (f st r).2 rs []
    else FieldsFunc.loop f (f st r).2 rs (r :: cur)

/-- The library function `strings.FieldsFunc(s, f)` for a predicate with state. -/
def FieldsFunc {σ : Type} (s : Str) (f : σ → Char → Bool × σ) (init : σ) : List Str :=
  FieldsFunc.loop f init s []

/-- The word list computed on line 99 of the source:
`strings.FieldsFunc(string(fileBytes), MakeFieldsFunc())`. -/
def words (text : Str) : List Str :=
  FieldsFunc text MakeFieldsFunc.f MakeFieldsFunc

/-- The sequence of answers the predicate gives on `s`, each paired with the
rune it was given. -/
def classify {σ : Type} (f : σ → Char → Bool × σ) : σ → List Char → List (Char × Bool)
  | _, [] => []
  | st, r :: rs => (r, (f st r).1) :: classify f (f st r).2 rs

/-! ## Go integers and maps -/

/-- The value a Go `int` (64 bits, two's complement) holds after an arithmetic
result `x` is stored in it. -/
def wrapInt (x : Int) : Int := (x + 2 ^ 63) % 2 ^ 64 - 2 ^ 63

/-- The values a Go `int` can hold. -/
def IsInt (x : Int) : Prop := -(2 ^ 63) ≤ x ∧ x < 2 ^ 63

instance (x : Int) : Decidable (IsInt x) := by unfold IsInt; infer_instance

/-- A Go `map[string][]int`, as an association list. -/
abbrev GoMap := List (Str × List Int)

/-- The map read `m[k]` with its presence flag. -/
def GoMap.get : GoMap → Str → Option (List Int)
  | [], _ => none
  | (k', v) :: rest, k => if k' = k then some v else GoMap.get rest k

/-- The map write `m[k] = v`. -/
def GoMap.set : GoMap → Str → List Int → GoMap
  | [], k, v => [(k, v)]
  | (k', v') :: rest, k, v =>
    if k' = k then (k, v) :: rest else (k', v') :: GoMap.set rest k v

/-- The keys of a map. -/
def GoMap.keys (m : GoMap) : List Str := m.map Prod.fst

/-- A well-formed map holds each key once. -/
def GoMap.WF (m : GoMap) : Prop := m.keys.Nodup

instance (m : GoMap) : Decidable m.WF := by unfold GoMap.WF; infer_instance

/-! ## The gap transform (`Difference`) -/

/-- One iteration of the inner loop of `Difference` on the slice `out = m[k]`:
`if i < 1 { continue }; m[k][i] = s[i] - s[i-1] - 1`. -/
def Difference.step (s : List Int) (out : List Int) (i : Nat) : List Int :=
  if i < 1 then out
  else out.set i (wrapInt (s.getD i 0 - s.getD (i - 1) 0 - 1))

/-- The body of the outer loop of `Difference` for one list `s`: the slice
stored at `m[k]`. The assignment `m[k][0] = s[0]` panics on an empty `s`. -/
def Difference.list (s : List Int) : Option (List Int) :=
  match s with
  | [] => none
  | s0 :: _ =>
    some ((List.range s.length).foldl (Difference.step s)
      ((List.replicate s.length 0).set 0 s0))

/-- The two maps `Difference` works with: its argument and its result. -/
structure Difference.State where
  positions : GoMap
  m : GoMap
deriving DecidableEq, Repr

/-- One iteration of `for k, s := range positions`. -/
def Difference.body (st : Difference.State) (e : Str × List Int) :
    Option Difference.State :=
  match Difference.list e.2 with
  | none => none
  | some d => some { st with m := st.m.set e.1 d }

/-- The loop of `Difference` over the entries still to visit. -/
def Difference.run : List (Str × List Int) → Difference.State → Option Difference.State
  | [], st => some st
  | e :: rest, st =>
    match Difference.body st e with
    | none => none
    | some st' => Difference.run rest st'

/-- The function `Difference`, with both maps as they are when it returns. -/
def Difference.exec (positions : GoMap) : Option Difference.State :=
  Difference.run positions ⟨positions, []⟩

/-- The function `Difference`: the returned map, `none` when it panics. -/
def Difference (positions : GoMap) : Option GoMap :=
  (Difference.exec positions).map (fun st => st.m)

/-! ## The position index (`Query`) -/

/-- The body of `for _, q := range queries` for the word `w` at index `i`
(already incremented). -/
def Query.inner (w : Str) (i : Int) (sr : GoMap) (q : Str) : GoMap :=
  if w = q then
    match sr.get w with
    | none => sr.set w [i]
    | some l => sr.set w (l ++ [i])
  else sr

/-- The loop `for i, w := range words` from index `i` on. -/
def Query.loop (queries : List Str) : Nat → List Str → GoMap → GoMap
  | _, [], sr => sr
  | i, w :: ws, sr =>
    Query.loop queries (i + 1) ws (queries.foldl (Query.inner w ((i : Int) + 1)) sr)

/-- The map `sr` at the end of the loop of `Query`, before `Difference`. -/
def Query.index (queries : List Str) (ws : List Str) : GoMap :=
  Query.loop queries 0 ws []

/-- The function `Query` on the contents of the file: `none` when it panics. -/
def Query (queries : List Str) (fileBytes : Str) : Option GoMap :=
  Difference (Query.index queries (words fileBytes))

/-! ## The palette (`Colors`) -/

/-- The type `Colors`. -/
abbrev Colors := List String

/-- The package variable `colors`. -/
def colors : Colors :=
  ["255 60 60", "60 200 60", "60 60 255", "230 200 60", "255 60 255", "60 220 220"]

/-- The method `Elt`: `return colors[n%len(cls)]`. The remainder is Go's
(truncated, with the sign of `n`); it panics when `len(cls)` is zero, and the
index panics when it is outside the package variable `colors`. -/
def Colors.Elt (cls : Colors) (n : Int) : Option String :=
  if cls.length = 0 then none
  else
    let r := Int.tmod n (cls.length : Int)
    if r < 0 then none else colors[r.toNat]?

/-! ## Highlighting (`ColorWords`) -/

/-- The outcome of a computation that can panic, or leave the part of the
regular-expression library that is modelled here. -/
inductive Result (α : Type) where
  | ok (a : α)
  | panic
  | unsupported
deriving DecidableEq, Repr

/-- Sequencing of outcomes. -/
def Result.bind {α β : Type} (x : Result α) (g : α → Result β) : Result β :=
  match x with
  | .ok a => g a
  | .panic => .panic
  | .unsupported => .unsupported

/-- The number of bytes of the UTF-8 encoding of a rune (`utf8.RuneLen`). -/
def utf8Len (c : Char) : Nat :=
  if c.toNat < 0x80 then 1
  else if c.toNat < 0x800 then 2
  else if c.toNat < 0x10000 then 3
  else 4

/-- The length in bytes of a string (`len(s)`). -/
def byteLen (s : Str) : Nat := (s.map utf8Len).sum

/-- The composition `utf8.RuneCountInString(s[:b])`: the slice panics when `b`
exceeds `len(s)`; when `b` falls inside the encoding of a rune, each of the
bytes kept from it counts as one (invalid) rune. -/
def RuneCountInString.upTo : Str → Nat → Option Nat
  | _, 0 => some 0
  | [], _ + 1 => none
  | c :: cs, b + 1 =>
    if utf8Len c ≤ b + 1 then
      (RuneCountInString.upTo cs (b + 1 - utf8Len c)).map (fun n => n + 1)
    else some (b + 1)

/-- The regular expressions of the modelled part of `regexp`: a sequence of
items that each match one rune. -/
inductive Regexp.Atom where
  | lit (c : Char)
  | anyNotNL
  | cls (cs : List Char)
deriving DecidableEq, Repr

/-- A compiled regular expression of the modelled part. -/
abbrev Regexp := List Regexp.Atom

/-- Whether an item matches a rune: a literal matches itself, `.` matches
every rune but the newline, a class matches its members. -/
def Regexp.Atom.accepts : Regexp.Atom → Char → Bool
  | .lit c, r => r == c
  | .anyNotNL, r => r != '\n'
  | .cls cs, r => cs.contains r

/-- The characters with a special meaning in a pattern (those that
`regexp.QuoteMeta` escapes). -/
def metaChars : List Char :=
  ['\\', '.', '+', '*', '?', '(', ')', '|', '[', ']', '\x7b', '\x7d', '^', '$']

/-- The parser behind `regexp.MustCompile`, for the modelled part of the
syntax: literal runes, `.`, and bracket classes of plain runes. `cls` holds,
reversed, the members of the class being read. A repetition operator at the
start of the pattern and a class left open are errors, on which `MustCompile`
panics; every other use of a special character is outside the model. -/
def MustCompile.loop : List Char → List Regexp.Atom → Option (List Char) → Result Regexp
  | [], acc, none => .ok acc.reverse
  | [], _, some _ => .panic
  | c :: rest, acc, none =>
    if c = '[' then MustCompile.loop rest acc (some [])
    else if c = '.' then MustCompile.loop rest (.anyNotNL :: acc) none
    else if c ∈ metaChars then
      if (c = '*' ∨ c = '+' ∨ c = '?') ∧ acc = [] then .panic else .unsupported
    else MustCompile.loop rest (.lit c :: acc) none
  | c :: rest, acc, some m =>
    if c = ']' ∧ m ≠ [] then MustCompile.loop rest (.cls m.reverse :: acc) none
    else if c = '\\' ∨ c = '^' ∨ c = '-' ∨ c = '[' ∨ c = ']' then .unsupported
    else MustCompile.loop rest acc (some (c :: m))

/-- The library function `regexp.MustCompile`, on the modelled part. -/
def MustCompile (pattern : Str) : Result Regexp :=
  MustCompile.loop pattern [] none

/-- Whether `re` matches a prefix of `s`. -/
def Regexp.matchAt : Regexp → List Char → Bool
  | [], _ => true
  | _ :: _, [] => false
  | a :: as, r :: rs => a.accepts r && Regexp.matchAt as rs

/-- The scan of `FindAllStringIndex(s, -1)`: `off` is the byte offset of the
rest of the text, `skip` the number of runes of it covered by the last match.
Matches are sought left to right and do not overlap. -/
def FindAllStringIndex.loop (re : Regexp) : List Char → Nat → Nat → List (Nat × Nat)
  | [], off, _ => if re.isEmpty then [(off, off)] else []
  | r :: rs, off, skip =>
    if 0 < skip then FindAllStringIndex.loop re rs (off + utf8Len r) (skip - 1)
    else if Regexp.matchAt re (r :: rs) then
      (off, off + byteLen ((r :: rs).take re.length)) ::
        FindAllStringIndex.loop re rs (off + utf8Len r) (re.length - 1)
    else FindAllStringIndex.loop re rs (off + utf8Len r) 0

/-- The library method `re.FindAllStringIndex(s, -1)`: the byte offsets
`(start, end)` of the successive matches. -/
def FindAllStringIndex (re : Regexp) (s : Str) : List (Nat × Nat) :=
  FindAllStringIndex.loop re s 0 0

/-- A format tag handed to the text field: its `BGCOLOR` and the two numbers
of its `SELECTIONPOS`. -/
structure FormatTag where
  BGCOLOR : String
  selStart : Nat
  selEnd : Nat
deriving DecidableEq, Repr

/-- The call `strings.ReplaceAll(s, "\r", "")`. -/
def removeCR (s : Str) : Str := s.filter (fun c => c != '\r')

/-- The loop `for _, v := range indexes` of `ColorWords`. -/
def ColorWords.tags (color : String) (fileString s : Str) :
    List (Nat × Nat) → Result (List FormatTag)
  | [] => .ok []
  | v :: vs =>
    match RuneCountInString.upTo fileString v.1 with
    | none => .panic
    | some runeIndex =>
      (ColorWords.tags color fileString s vs).bind fun ts =>
        .ok (⟨color, runeIndex, runeIndex + s.length⟩ :: ts)

/-- The body of `for i, s := range queries` of `ColorWords`: the tags added
for the query `s` at index `i`. -/
def ColorWords.query (fileString : Str) (i : Nat) (s : Str) : Result (List FormatTag) :=
  match Colors.Elt colors (i : Int) with
  | none => .panic
  | some color =>
    (MustCompile (s ++ ['[', ' ', '\n', ']'])).bind fun re =>
      ColorWords.tags color fileString s (FindAllStringIndex re fileString)

/-- The loop `for i, s := range queries` of `ColorWords` from index `i` on. -/
def ColorWords.loop (fileString : Str) : Nat → List Str → Result (List FormatTag)
  | _, [] => .ok []
  | i, s :: rest =>
    (ColorWords.query fileString i s).bind fun ts =>
      (ColorWords.loop fileString (i + 1) rest).bind fun us => .ok (ts ++ us)

/-- The function `ColorWords` on the contents of the file: the format tags
added to the text field, in order. -/
def ColorWords (fileBytes : Str) (queries : List Str) : Result (List FormatTag) :=
  ColorWords.loop (removeCR fileBytes) 0 queries

/-! ## Closed forms used in the proofs -/

/-- The gaps of the list `prev :: s`, without its first entry. -/
def gapsFrom (prev : Int) : List Int → List Int
  | [] => []
  | x :: xs => wrapInt (x - prev - 1) :: gapsFrom x xs

/-- The gap list of a position list in closed form: the first position, then
for each later position the number of words between it and the one before,
in Go's arithmetic. -/
def gaps : List Int → List Int
  | [] => []
  | s0 :: t => s0 :: gapsFrom s0 t

/-- The compiled form of the pattern `s + "[ \n]"` for a query without special
characters. -/
def literalPattern (q : Str) : Regexp :=
  q.map Regexp.Atom.lit ++ [Regexp.Atom.cls [' ', '\n']]

/-- The cumulative sum of the specification, `position[0] = gap[0]` and
`position[i] = position[i-1] + gap[i] + 1`, from the previous position on,
each sum stored in a Go `int`. -/
def rebuildPositions.go (prev : Int) : List Int → List Int
  | [] => []
  | g :: gs => wrapInt (prev + g + 1) :: rebuildPositions.go (wrapInt (prev + g + 1)) gs

/-- The positions rebuilt from a gap list, in Go's `int` arithmetic. -/
def rebuildPositions : List Int → List Int
  | [] => []
  | g0 :: gs => g0 :: rebuildPositions.go g0 gs

/-- The cumulative sum of the specification over the integers, from the
previous position on. -/
def rebuildExact.go (prev : Int) : List Int → List Int
  | [] => []
  | g :: gs => (prev + g + 1) :: rebuildExact.go (prev + g + 1) gs

/-- The positions rebuilt from a gap list, over the integers. -/
def rebuildExact : List Int → List Int
  | [] => []
  | g0 :: gs => g0 :: rebuildExact.go g0 gs

/-- Whether a list of integers is strictly increasing. -/
def strictlyIncreasing : List Int → Bool
  | a :: b :: rest => decide (a < b) && strictlyIncreasing (b :: rest)
  | _ => true

/-! ## Lemmas on the split predicate and on `FieldsFunc` -/

theorem FieldsFunc.loop_mem {σ : Type} (f : σ → Char → Bool × σ) (s : List Char) :
    ∀ (st : σ) (cur : List Char) (tok : Str), tok ∈ FieldsFunc.loop f st s cur →
      tok ≠ [] ∧
      (tok.map fun c => (c, false)) <:+:
        (cur.reverse.map fun c => (c, false)) ++ classify f st s := by
  induction s with
  | nil =>
    intro st cur tok h
    by_cases hc : cur = []
    · simp [FieldsFunc.loop, hc] at h
    · simp only [FieldsFunc.loop, hc, if_false, List.mem_singleton] at h
      subst h
      refine ⟨by simpa using hc, ?_⟩
      simp [classify]
  | cons r rs ih =>
    intro st cur tok h
    have hsuf : classify f (f st r).2 rs <:+:
        (cur.reverse.map fun c => (c, false)) ++ classify f st (r :: rs) := by
      refine List.IsSuffix.isInfix ?_
      refine ⟨(cur.reverse.map fun c => (c, false)) ++ [(r, (f st r).1)], ?_⟩
      simp [classify]
    cases hb : (f st r).1 with
    | true =>
      by_cases hc : cur = []
      · simp only [FieldsFunc.loop, hb, hc, if_true] at h
        obtain ⟨h1, h2⟩ := ih _ _ _ h
        exact ⟨h1, (by simpa using h2 : _ <:+: classify f (f st r).2 rs).trans hsuf⟩
      · simp only [FieldsFunc.loop, hb, hc, if_true, if_false, List.mem_cons] at h
        rcases h with h | h
        · subst h
          refine ⟨by simpa using hc, ?_⟩
          exact List.IsPrefix.isInfix (List.prefix_append _ _)
        · obtain ⟨h1, h2⟩ := ih _ _ _ h
          exact ⟨h1, (by simpa using h2 : _ <:+: classify f (f st r).2 rs).trans hsuf⟩
    | false =>
      simp only [FieldsFunc.loop, hb, if_false, Bool.false_eq_true] at h
      obtain ⟨h1, h2⟩ := ih _ _ _ h
      refine ⟨h1, ?_⟩
      simpa [classify, hb] using h2

theorem classify_boundary (s : List Char) :
    ∀ (st : FieldsState) (c : Char) (b : Bool), (c, b) ∈ classify MakeFieldsFunc.f st s →
      (c = ' ' ∨ c = '\n' ∨ c = '\r' ∨ c = '(' ∨ c = ')') → b = true := by
  induction s with
  | nil => intro st c b h; simp [classify] at h
  | cons r rs ih =>
    intro st c b h hc
    simp only [classify, List.mem_cons, Prod.mk.injEq] at h
    rcases h with ⟨h1, h2⟩ | h
    · subst h1
      subst h2
      rcases hc with hc | hc | hc | hc | hc <;> subst hc <;>
        simp [MakeFieldsFunc.f, isSpace]
    · exact ih _ _ _ h hc

theorem FieldsFunc.loop_marker_body (M R : List Char) (hM : ')' ∉ M)
    (hR : R = [] ∨ ∃ R', R = ')' :: R') :
    ∀ l : Char, FieldsFunc.loop MakeFieldsFunc.f ⟨l, true⟩ (M ++ R) [] =
      FieldsFunc.loop MakeFieldsFunc.f ⟨'(', true⟩ R [] := by
  induction M with
  | nil =>
    intro l
    rcases hR with h | ⟨R', h⟩
    · subst h; simp [FieldsFunc.loop]
    · subst h; simp [FieldsFunc.loop, MakeFieldsFunc.f]
  | cons c M ih =>
    intro l
    have hc : c ≠ ')' := fun h => hM (by simp [h])
    have hM' : ')' ∉ M := fun h => hM (by simp [h])
    have hf : MakeFieldsFunc.f ⟨l, true⟩ c = (true, ⟨c, true⟩) := by
      by_cases h1 : c = '('
      · simp [MakeFieldsFunc.f, h1]
      · simp [MakeFieldsFunc.f, h1, hc]
    simp only [List.cons_append, FieldsFunc.loop, hf, if_true]
    exact ih hM' c

theorem FieldsFunc.loop_marker (A M R : List Char) (hM : ')' ∉ M)
    (hR : R = [] ∨ ∃ R', R = ')' :: R') :
    ∀ (st : FieldsState) (cur : List Char),
      FieldsFunc.loop MakeFieldsFunc.f st (A ++ '(' :: (M ++ R)) cur =
      FieldsFunc.loop MakeFieldsFunc.f st (A ++ '(' :: R) cur := by
  induction A with
  | nil =>
    intro st cur
    have hf : MakeFieldsFunc.f st '(' = (true, ⟨'(', true⟩) := by simp [MakeFieldsFunc.f]
    simp only [List.nil_append, FieldsFunc.loop, hf, if_true]
    rw [FieldsFunc.loop_marker_body M R hM hR]
  | cons a A ih =>
    intro st cur
    simp only [List.cons_append, FieldsFunc.loop, List.append_eq, ih]

theorem FieldsFunc.loop_open_paren (A : List Char) :
    ∀ (st : FieldsState) (cur : List Char),
      FieldsFunc.loop MakeFieldsFunc.f st (A ++ ['(']) cur =
      FieldsFunc.loop MakeFieldsFunc.f st A cur := by
  induction A with
  | nil =>
    intro st cur
    have hf : MakeFieldsFunc.f st '(' = (true, ⟨'(', true⟩) := by simp [MakeFieldsFunc.f]
    by_cases hc : cur = [] <;> simp [FieldsFunc.loop, hf, hc]
  | cons a A ih =>
    intro st cur
    simp only [List.cons_append, FieldsFunc.loop, List.append_eq, ih]

/-! ## Lemmas on Go integers -/

theorem wrapInt_of_isInt {x : Int} (h : IsInt x) : wrapInt x = x := by
  unfold IsInt at h
  unfold wrapInt
  omega

theorem wrapInt_isInt (x : Int) : IsInt (wrapInt x) := by
  unfold IsInt wrapInt
  omega

theorem wrapInt_add_sub_cancel {a x : Int} (hx : IsInt x) :
    wrapInt (a + wrapInt (x - a - 1) + 1) = x := by
  unfold IsInt at hx
  unfold wrapInt
  omega

/-! ## Lemmas on `Difference` -/

theorem gapsFrom_length (s : List Int) : ∀ prev, (gapsFrom prev s).length = s.length := by
  induction s with
  | nil => intro prev; rfl
  | cons x xs ih => intro prev; simp [gapsFrom, ih]

theorem gapsFrom_getElem? (s : List Int) :
    ∀ (prev : Int) (i : Nat),
      (gapsFrom prev s)[i]? =
        (s[i]?).map fun b => wrapInt (b - (prev :: s).getD i 0 - 1) := by
  induction s with
  | nil => intro prev i; simp [gapsFrom]
  | cons x xs ih =>
    intro prev i
    cases i with
    | zero => simp [gapsFrom]
    | succ j =>
      simp only [gapsFrom, List.getElem?_cons_succ, ih x j]
      simp

theorem Difference.fold_length (s : List Int) (n : Nat) :
    ∀ out : List Int,
      ((List.range n).foldl (Difference.step s) out).length = out.length := by
  induction n with
  | zero => intro out; simp
  | succ n ih =>
    intro out
    rw [List.range_succ, List.foldl_append]
    simp only [List.foldl_cons, List.foldl_nil, Difference.step]
    split
    · exact ih out
    · rw [List.length_set]; exact ih out

theorem Difference.fold_getElem? (s : List Int) (n : Nat) :
    ∀ (out : List Int) (i : Nat),
      ((List.range n).foldl (Difference.step s) out)[i]? =
        if 1 ≤ i ∧ i < n ∧ i < out.length then
          some (wrapInt (s.getD i 0 - s.getD (i - 1) 0 - 1))
        else out[i]? := by
  induction n with
  | zero => intro out i; simp
  | succ n ih =>
    intro out i
    rw [List.range_succ, List.foldl_append]
    simp only [List.foldl_cons, List.foldl_nil, Difference.step]
    by_cases hn : n < 1
    · have h0 : n = 0 := by omega
      subst h0
      have h1 : ¬ (1 ≤ i ∧ i < 0 ∧ i < out.length) := by omega
      have h2 : ¬ (1 ≤ i ∧ i < 0 + 1 ∧ i < out.length) := by omega
      rw [if_pos hn, ih out i, if_neg h1, if_neg h2]
    · simp only [hn, if_false, List.getElem?_set, Difference.fold_length, ih out i]
      by_cases hi : n = i
      · subst hi
        by_cases hl : n < out.length
        · have h1 : 1 ≤ n ∧ n < n + 1 ∧ n < out.length := by omega
          simp [hl, h1]
        · have h1 : ¬ (1 ≤ n ∧ n < n + 1 ∧ n < out.length) := by omega
          have h2 : out[n]? = none := by
            rw [List.getElem?_eq_none_iff]; omega
          simp [hl, h1, h2]
      · by_cases hc : 1 ≤ i ∧ i < n ∧ i < out.length
        · have h1 : 1 ≤ i ∧ i < n + 1 ∧ i < out.length := by omega
          simp [hi, hc, h1]
        · have h1 : ¬ (1 ≤ i ∧ i < n + 1 ∧ i < out.length) := by omega
          simp [hi, hc, h1]

theorem Difference.list_cons (s0 : Int) (t : List Int) :
    Difference.list (s0 :: t) = some (s0 :: gapsFrom s0 t) := by
  simp only [Difference.list, Option.some.injEq]
  apply List.ext_getElem?
  intro i
  rw [Difference.fold_getElem?]
  cases i with
  | zero => simp [List.replicate_succ]
  | succ j =>
    simp only [List.length_set, List.length_replicate, List.length_cons,
      List.getElem?_cons_succ, gapsFrom_getElem?]
    by_cases hj : j < t.length
    · have h1 : 1 ≤ j + 1 ∧ j + 1 < t.length + 1 ∧ j + 1 < t.length + 1 := by omega
      simp [h1, hj, List.getElem?_eq_getElem hj]
    · have h1 : ¬ (1 ≤ j + 1 ∧ j + 1 < t.length + 1 ∧ j + 1 < t.length + 1) := by omega
      have h2 : t[j]? = none := by rw [List.getElem?_eq_none_iff]; omega
      simp only [h1, if_false, h2, Option.map_none']
      rw [List.getElem?_eq_none_iff]
      simp; omega

theorem Difference.list_eq_gaps {s : List Int} (h : s ≠ []) :
    Difference.list s = some (gaps s) := by
  cases s with
  | nil => exact absurd rfl h
  | cons s0 t => exact Difference.list_cons s0 t

theorem gaps_length (s : List Int) : (gaps s).length = s.length := by
  cases s with
  | nil => rfl
  | cons s0 t => simp [gaps, gapsFrom_length]

/-! ## Lemmas on maps -/

theorem GoMap.get_set (m : GoMap) (k : Str) (v : List Int) (k' : Str) :
    (m.set k v).get k' = if k = k' then some v else m.get k' := by
  induction m with
  | nil => simp [GoMap.set, GoMap.get]
  | cons e rest ih =>
    obtain ⟨k0, v0⟩ := e
    by_cases h : k0 = k
    · subst h
      by_cases h' : k0 = k' <;> simp [GoMap.set, GoMap.get, h']
    · by_cases h' : k0 = k'
      · subst h'
        have : ¬ k = k0 := fun e => h e.symm
        simp [GoMap.set, GoMap.get, h, this]
      · simp [GoMap.set, GoMap.get, h, h', ih]

theorem GoMap.mem_keys_set (m : GoMap) (k : Str) (v : List Int) (k' : Str) :
    k' ∈ (m.set k v).keys ↔ k' = k ∨ k' ∈ m.keys := by
  induction m with
  | nil => simp [GoMap.set, GoMap.keys]
  | cons e rest ih =>
    obtain ⟨k0, v0⟩ := e
    by_cases h : k0 = k
    · subst h
      simp [GoMap.set, GoMap.keys]
    · simp only [GoMap.keys] at ih
      simp only [GoMap.set, h, if_false, GoMap.keys, List.map_cons, List.mem_cons, ih]
      tauto

theorem GoMap.wf_set (m : GoMap) (k : Str) (v : List Int) (h : m.WF) : (m.set k v).WF := by
  induction m with
  | nil => simp [GoMap.set, GoMap.WF, GoMap.keys]
  | cons e rest ih =>
    obtain ⟨k0, v0⟩ := e
    simp only [GoMap.WF, GoMap.keys, List.map_cons, List.nodup_cons] at h
    by_cases hk : k0 = k
    · subst hk
      simpa [GoMap.set, GoMap.WF, GoMap.keys] using h
    · have h1 := ih h.2
      have h2 : k0 ∉ (GoMap.set rest k v).keys := by
        rw [GoMap.mem_keys_set]
        intro hc
        rcases hc with hc | hc
        · exact hk hc
        · exact h.1 hc
      simp only [GoMap.set, hk, if_false, GoMap.WF, GoMap.keys, List.map_cons,
        List.nodup_cons]
      exact ⟨h2, h1⟩

theorem GoMap.mem_set (m : GoMap) (k : Str) (v : List Int) (e : Str × List Int)
    (h : e ∈ m.set k v) : e = (k, v) ∨ e ∈ m := by
  induction m with
  | nil => simpa [GoMap.set] using h
  | cons e0 rest ih =>
    obtain ⟨k0, v0⟩ := e0
    by_cases hk : k0 = k
    · simp only [GoMap.set, hk, if_true, List.mem_cons] at h
      rcases h with h | h
      · exact Or.inl h
      · exact Or.inr (List.mem_cons_of_mem _ h)
    · simp only [GoMap.set, hk, if_false, List.mem_cons] at h
      rcases h with h | h
      · exact Or.inr (by simp [h])
      · rcases ih h with h' | h'
        · exact Or.inl h'
        · exact Or.inr (List.mem_cons_of_mem _ h')

theorem GoMap.get_eq_none_iff (m : GoMap) (k : Str) : m.get k = none ↔ k ∉ m.keys := by
  induction m with
  | nil => simp [GoMap.get, GoMap.keys]
  | cons e rest ih =>
    obtain ⟨k0, v0⟩ := e
    simp only [GoMap.keys] at ih
    by_cases h : k0 = k
    · simp [GoMap.get, GoMap.keys, h]
    · have h' : ¬ k = k0 := fun e => h e.symm
      simp [GoMap.get, GoMap.keys, h, h', ih]

theorem GoMap.get_isSome_iff (m : GoMap) (k : Str) : (m.get k).isSome ↔ k ∈ m.keys := by
  have := GoMap.get_eq_none_iff m k
  cases h : m.get k with
  | none => simp [(this.mp h)]
  | some v =>
    simp only [Option.isSome_some, true_iff]
    by_contra hc
    rw [this.mpr hc] at h
    exact Option.noConfusion h

theorem GoMap.mem_of_get (m : GoMap) (k : Str) (v : List Int) (h : m.get k = some v) :
    (k, v) ∈ m := by
  induction m with
  | nil => simp [GoMap.get] at h
  | cons e rest ih =>
    obtain ⟨k0, v0⟩ := e
    by_cases hk : k0 = k
    · simp only [GoMap.get, hk, if_true, Option.some.injEq] at h
      simp [hk, h]
    · simp only [GoMap.get, hk, if_false] at h
      exact List.mem_cons_of_mem _ (ih h)

/-! ## The outer loop of `Difference` -/

theorem Difference.run_eq (es : List (Str × List Int)) (hne : ∀ e ∈ es, e.2 ≠ []) :
    ∀ st : Difference.State,
      Difference.run es st =
        some ⟨st.positions, es.foldl (fun m e => m.set e.1 (gaps e.2)) st.m⟩ := by
  induction es with
  | nil => intro st; rfl
  | cons e rest ih =>
    intro st
    have h1 : e.2 ≠ [] := hne e (List.mem_cons_self _ _)
    have h2 : ∀ e' ∈ rest, e'.2 ≠ [] := fun e' he => hne e' (List.mem_cons_of_mem _ he)
    simp only [Difference.run, Difference.body, Difference.list_eq_gaps h1, List.foldl_cons]
    rw [ih h2]

theorem Difference.run_none (es : List (Str × List Int)) (h : ∃ e ∈ es, e.2 = []) :
    ∀ st : Difference.State, Difference.run es st = none := by
  induction es with
  | nil => obtain ⟨e, he, _⟩ := h; simp at he
  | cons e rest ih =>
    intro st
    by_cases h1 : e.2 = []
    · simp [Difference.run, Difference.body, h1, Difference.list]
    · have h2 : ∃ e' ∈ rest, e'.2 = [] := by
        obtain ⟨e', he', h3⟩ := h
        rcases List.mem_cons.mp he' with h4 | h4
        · subst h4; exact absurd h3 h1
        · exact ⟨e', h4, h3⟩
      simp only [Difference.run, Difference.body, Difference.list_eq_gaps h1]
      exact ih h2 _

theorem GoMap.get_foldl_set (g : List Int → List Int) (es : GoMap) :
    ∀ (m : GoMap) (k : Str), es.WF →
      (es.foldl (fun m e => m.set e.1 (g e.2)) m).get k =
        match es.get k with
        | some s => some (g s)
        | none => m.get k := by
  induction es with
  | nil => intro m k _; simp [GoMap.get]
  | cons e rest ih =>
    intro m k hwf
    obtain ⟨k0, v0⟩ := e
    simp only [GoMap.WF, GoMap.keys, List.map_cons, List.nodup_cons] at hwf
    simp only [List.foldl_cons]
    rw [ih _ k hwf.2]
    by_cases hk : k0 = k
    · subst hk
      have h1 : GoMap.get rest k0 = none := (GoMap.get_eq_none_iff rest k0).mpr hwf.1
      simp [GoMap.get, h1, GoMap.get_set]
    · simp [GoMap.get, hk, GoMap.get_set]

theorem GoMap.wf_foldl_set (g : List Int → List Int) (es : List (Str × List Int)) :
    ∀ m : GoMap, m.WF → (es.foldl (fun m e => m.set e.1 (g e.2)) m).WF := by
  induction es with
  | nil => intro m h; exact h
  | cons e rest ih => intro m h; exact ih _ (GoMap.wf_set m _ _ h)

/-- What `Difference` returns on a well-formed map without empty lists. -/
theorem Difference.exec_eq (positions : GoMap) (hne : ∀ e ∈ positions, e.2 ≠ []) :
    Difference.exec positions =
      some ⟨positions, positions.foldl (fun m e => m.set e.1 (gaps e.2)) []⟩ := by
  unfold Difference.exec
  rw [Difference.run_eq positions hne]

/-! ## The loops of `Query` -/

theorem Query.inner_wf (w : Str) (i : Int) (sr : GoMap) (q : Str) (h : sr.WF) :
    (Query.inner w i sr q).WF := by
  unfold Query.inner
  split
  · split <;> exact GoMap.wf_set _ _ _ h
  · exact h

theorem Query.inner_keys (w : Str) (i : Int) (sr : GoMap) (q : Str) (k : Str) :
    k ∈ (Query.inner w i sr q).keys ↔ k ∈ sr.keys ∨ (k = w ∧ w = q) := by
  unfold Query.inner
  split
  · rename_i h
    split <;> simp only [GoMap.mem_keys_set, h, and_true] <;> tauto
  · rename_i h
    simp [h]

theorem Query.inner_nonempty (w : Str) (i : Int) (sr : GoMap) (q : Str)
    (h : ∀ e ∈ sr, e.2 ≠ []) : ∀ e ∈ Query.inner w i sr q, e.2 ≠ [] := by
  unfold Query.inner
  split
  · split
    · intro e he
      rcases GoMap.mem_set _ _ _ _ he with h1 | h1
      · subst h1; simp
      · exact h e h1
    · intro e he
      rcases GoMap.mem_set _ _ _ _ he with h1 | h1
      · subst h1; simp
      · exact h e h1
  · exact h

theorem Query.fold_inv (w : Str) (i : Int) (qs : List Str) :
    ∀ sr : GoMap, sr.WF → (∀ e ∈ sr, e.2 ≠ []) →
      (qs.foldl (Query.inner w i) sr).WF ∧
      (∀ e ∈ qs.foldl (Query.inner w i) sr, e.2 ≠ []) ∧
      (∀ k, k ∈ (qs.foldl (Query.inner w i) sr).keys ↔ k ∈ sr.keys ∨ (k = w ∧ w ∈ qs)) := by
  induction qs with
  | nil => intro sr h1 h2; exact ⟨h1, h2, by simp⟩
  | cons q qs ih =>
    intro sr h1 h2
    obtain ⟨a, b, c⟩ := ih (Query.inner w i sr q) (Query.inner_wf w i sr q h1)
      (Query.inner_nonempty w i sr q h2)
    refine ⟨a, b, ?_⟩
    intro k
    simp only [List.foldl_cons, c, Query.inner_keys, List.mem_cons]
    tauto

theorem Query.loop_inv (queries : List Str) (ws : List Str) :
    ∀ (i : Nat) (sr : GoMap), sr.WF → (∀ e ∈ sr, e.2 ≠ []) →
      (Query.loop queries i ws sr).WF ∧
      (∀ e ∈ Query.loop queries i ws sr, e.2 ≠ []) ∧
      (∀ k, k ∈ (Query.loop queries i ws sr).keys ↔
        k ∈ sr.keys ∨ (k ∈ ws ∧ k ∈ queries)) := by
  induction ws with
  | nil => intro i sr h1 h2; exact ⟨h1, h2, by simp [Query.loop]⟩
  | cons w ws ih =>
    intro i sr h1 h2
    obtain ⟨a, b, c⟩ := Query.fold_inv w ((i : Int) + 1) queries sr h1 h2
    obtain ⟨a', b', c'⟩ := ih (i + 1) _ a b
    refine ⟨a', b', ?_⟩
    intro k
    simp only [Query.loop, c', c, List.mem_cons]
    constructor
    · rintro ((h | ⟨h, h'⟩) | ⟨h, h'⟩)
      · exact Or.inl h
      · exact Or.inr ⟨Or.inl h, h ▸ h'⟩
      · exact Or.inr ⟨Or.inr h, h'⟩
    · rintro (h | ⟨h | h, h'⟩)
      · exact Or.inl (Or.inl h)
      · exact Or.inl (Or.inr ⟨h, h ▸ h'⟩)
      · exact Or.inr ⟨h, h'⟩

theorem Query.index_inv (queries : List Str) (ws : List Str) :
    (Query.index queries ws).WF ∧
    (∀ e ∈ Query.index queries ws, e.2 ≠ []) ∧
    (∀ k, k ∈ (Query.index queries ws).keys ↔ k ∈ queries ∧ k ∈ ws) := by
  obtain ⟨a, b, c⟩ := Query.loop_inv queries ws 0 [] (by simp [GoMap.WF, GoMap.keys])
    (by simp)
  refine ⟨a, b, ?_⟩
  intro k
  unfold Query.index
  rw [c]
  simp [GoMap.keys]
  tauto

/-! ## Lemmas on the palette -/

theorem Colors.Elt_colors (n : Nat) : Colors.Elt colors (n : Int) = colors[n % 6]? := by
  have h : Int.tmod (n : Int) ((6 : Nat) : Int) = ((n % 6 : Nat) : Int) :=
    (Int.ofNat_tmod n 6).symm
  have hl : colors.length = 6 := rfl
  simp only [Colors.Elt, hl, h]
  have h2 : ¬ (((n % 6 : Nat) : Int) < 0) := by omega
  have h3 : (((n % 6 : Nat) : Int)).toNat = n % 6 := by omega
  simp only [Nat.reduceEqDiff, OfNat.ofNat_ne_zero, if_false, h2, h3]

theorem Colors.Elt_colors_isSome (n : Nat) : ∃ c, Colors.Elt colors (n : Int) = some c := by
  rw [Colors.Elt_colors]
  have h : n % 6 < colors.length := by
    have hl : colors.length = 6 := rfl
    rw [hl]
    exact Nat.mod_lt _ (by decide)
  exact ⟨colors[n % 6], List.getElem?_eq_getElem h⟩

/-! ## Lemmas on the pattern and the scan of `ColorWords` -/

theorem MustCompile.loop_literal (q : Str) (hq : ∀ c ∈ q, c ∉ metaChars) (rest : List Char) :
    ∀ acc : List Regexp.Atom,
      MustCompile.loop (q ++ rest) acc none =
        MustCompile.loop rest ((q.map Regexp.Atom.lit).reverse ++ acc) none := by
  induction q with
  | nil => intro acc; simp
  | cons c q ih =>
    intro acc
    have hc : c ∉ metaChars := hq c (List.mem_cons_self _ _)
    have h1 : c ≠ '[' := fun h => hc (by rw [h]; decide)
    have h2 : c ≠ '.' := fun h => hc (by rw [h]; decide)
    have hq' : ∀ c' ∈ q, c' ∉ metaChars := fun c' h => hq c' (List.mem_cons_of_mem _ h)
    simp only [List.cons_append, MustCompile.loop, h1, h2, hc, if_false, List.append_eq]
    rw [ih hq']
    simp

theorem MustCompile_literal (q : Str) (hq : ∀ c ∈ q, c ∉ metaChars) :
    MustCompile (q ++ ['[', ' ', '\n', ']']) = .ok (literalPattern q) := by
  unfold MustCompile
  rw [MustCompile.loop_literal q hq]
  simp [MustCompile.loop, literalPattern]

theorem Regexp.matchAt_literal (q : Str) :
    ∀ s : List Char, Regexp.matchAt (literalPattern q) s = true →
      s.take q.length = q ∧ ∃ c, s[q.length]? = some c ∧ (c = ' ' ∨ c = '\n') := by
  induction q with
  | nil =>
    intro s h
    cases s with
    | nil => simp [literalPattern, Regexp.matchAt] at h
    | cons r rs =>
      simp [literalPattern, Regexp.matchAt, Regexp.Atom.accepts] at h
      simpa using h
  | cons c q ih =>
    intro s h
    cases s with
    | nil => simp [literalPattern, Regexp.matchAt] at h
    | cons r rs =>
      simp only [literalPattern, List.map_cons, List.cons_append, Regexp.matchAt,
        Regexp.Atom.accepts, Bool.and_eq_true, beq_iff_eq] at h
      obtain ⟨h1, h2⟩ := ih rs h.2
      refine ⟨?_, ?_⟩
      · simp [h.1, h1]
      · simpa using h2

theorem utf8Len_pos (c : Char) : 0 < utf8Len c := by
  unfold utf8Len
  split
  · decide
  · split
    · decide
    · split <;> decide

theorem byteLen_cons (c : Char) (s : Str) : byteLen (c :: s) = utf8Len c + byteLen s := by
  simp [byteLen]

theorem FindAllStringIndex.loop_mem_match (re : Regexp) (rs : List Char) :
    ∀ (off skip : Nat) (v : Nat × Nat), v ∈ FindAllStringIndex.loop re rs off skip →
      ∃ n, n ≤ rs.length ∧ v.1 = off + byteLen (rs.take n) ∧
        Regexp.matchAt re (rs.drop n) = true ∧
        v.2 = v.1 + byteLen ((rs.drop n).take re.length) := by
  induction rs with
  | nil =>
    intro off skip v h
    simp only [FindAllStringIndex.loop] at h
    split at h
    · rename_i he
      simp only [List.mem_singleton] at h
      subst h
      have hre : re = [] := by simpa using he
      exact ⟨0, by simp, by simp [byteLen], by simp [hre, Regexp.matchAt], by simp [byteLen]⟩
    · simp at h
  | cons r rs ih =>
    intro off skip v h
    have lift : ∀ sk, v ∈ FindAllStringIndex.loop re rs (off + utf8Len r) sk →
        ∃ n, n ≤ (r :: rs).length ∧ v.1 = off + byteLen ((r :: rs).take n) ∧
          Regexp.matchAt re ((r :: rs).drop n) = true ∧
          v.2 = v.1 + byteLen (((r :: rs).drop n).take re.length) := by
      intro sk hv
      obtain ⟨n, h1, h2, h3, h4⟩ := ih _ _ _ hv
      refine ⟨n + 1, by simpa using h1, ?_, by simpa using h3, by simpa using h4⟩
      rw [h2, List.take_succ_cons, byteLen_cons]
      omega
    simp only [FindAllStringIndex.loop] at h
    split at h
    · exact lift _ h
    · split at h
      · rename_i hm
        rcases List.mem_cons.mp h with h | h
        · subst h
          exact ⟨0, by simp, by simp [byteLen], by simpa using hm, by simp⟩
        · exact lift _ h
      · exact lift _ h

theorem RuneCountInString.upTo_cons (c : Char) (cs : Str) (b : Nat) (hb : 0 < b) :
    RuneCountInString.upTo (c :: cs) b =
      if utf8Len c ≤ b then
        (RuneCountInString.upTo cs (b - utf8Len c)).map (fun n => n + 1)
      else some b := by
  cases b with
  | zero => omega
  | succ b => simp [RuneCountInString.upTo]

theorem RuneCountInString.upTo_take (s : Str) :
    ∀ n, n ≤ s.length → RuneCountInString.upTo s (byteLen (s.take n)) = some n := by
  induction s with
  | nil =>
    intro n hn
    have : n = 0 := by simpa using hn
    subst this
    simp [byteLen, RuneCountInString.upTo]
  | cons c cs ih =>
    intro n hn
    cases n with
    | zero => simp [byteLen, RuneCountInString.upTo]
    | succ n =>
      have hn' : n ≤ cs.length := by simpa using hn
      have hpos := utf8Len_pos c
      rw [List.take_succ_cons, byteLen_cons, RuneCountInString.upTo_cons _ _ _ (by omega)]
      have h1 : utf8Len c ≤ utf8Len c + byteLen (cs.take n) := by omega
      rw [if_pos h1, Nat.add_sub_cancel_left, ih n hn']
      rfl

theorem ColorWords.tags_eq (color : String) (fileString s : Str) (vs : List (Nat × Nat)) :
    (∀ v ∈ vs, ∃ n, RuneCountInString.upTo fileString v.1 = some n) →
      ColorWords.tags color fileString s vs =
        .ok (vs.map fun v =>
          ⟨color, (RuneCountInString.upTo fileString v.1).getD 0,
            (RuneCountInString.upTo fileString v.1).getD 0 + s.length⟩) := by
  induction vs with
  | nil => intro _; rfl
  | cons v vs ih =>
    intro h
    obtain ⟨n, hn⟩ := h v (List.mem_cons_self _ _)
    have h' := ih (fun v' hv' => h v' (List.mem_cons_of_mem _ hv'))
    simp [ColorWords.tags, hn, h', Result.bind]

theorem ColorWords.loop_ok (fileString : Str) (qs : List Str)
    (h : ∀ q ∈ qs, ∀ j, ∃ ts, ColorWords.query fileString j q = .ok ts) :
    ∀ i, ∃ tags, ColorWords.loop fileString i qs = .ok tags ∧
      ∀ t ∈ tags, ∃ q ∈ qs, ∃ j ts, ColorWords.query fileString j q = .ok ts ∧ t ∈ ts := by
  induction qs with
  | nil => intro i; exact ⟨[], rfl, by simp⟩
  | cons q qs ih =>
    intro i
    obtain ⟨ts, hts⟩ := h q (List.mem_cons_self _ _) i
    obtain ⟨us, hus, hmem⟩ := ih (fun q' hq' => h q' (List.mem_cons_of_mem _ hq')) (i + 1)
    refine ⟨ts ++ us, by simp [ColorWords.loop, hts, hus, Result.bind], ?_⟩
    intro t ht
    rcases List.mem_append.mp ht with ht | ht
    · exact ⟨q, List.mem_cons_self _ _, i, ts, hts, ht⟩
    · obtain ⟨q', hq', j, ts', h1, h2⟩ := hmem t ht
      exact ⟨q', List.mem_cons_of_mem _ hq', j, ts', h1, h2⟩

theorem ColorWords.query_literal (fileString : Str) (j : Nat) (q : Str)
    (hq : ∀ c ∈ q, c ∉ metaChars) :
    ∃ color, Colors.Elt colors (j : Int) = some color ∧
      ColorWords.query fileString j q =
        .ok ((FindAllStringIndex (literalPattern q) fileString).map fun v =>
          ⟨color, (RuneCountInString.upTo fileString v.1).getD 0,
            (RuneCountInString.upTo fileString v.1).getD 0 + q.length⟩) := by
  obtain ⟨color, hc⟩ := Colors.Elt_colors_isSome j
  refine ⟨color, hc, ?_⟩
  have ht := ColorWords.tags_eq color fileString q
    (FindAllStringIndex (literalPattern q) fileString) (by
      intro v hv
      obtain ⟨n, h1, h2, _, _⟩ := FindAllStringIndex.loop_mem_match _ _ _ _ _ hv
      refine ⟨n, ?_⟩
      rw [h2, Nat.zero_add]
      exact RuneCountInString.upTo_take fileString n h1)
  simp only [ColorWords.query, hc, MustCompile_literal q hq, Result.bind]
  exact ht

/-! ## Lemmas on rebuilding positions -/

theorem rebuildPositions.go_gapsFrom (s : List Int) :
    ∀ prev : Int, (∀ x ∈ s, IsInt x) →
      rebuildPositions.go prev (gapsFrom prev s) = s := by
  induction s with
  | nil => intro prev _; rfl
  | cons x xs ih =>
    intro prev h
    have hx : IsInt x := h x (List.mem_cons_self _ _)
    have hxs : ∀ y ∈ xs, IsInt y := fun y hy => h y (List.mem_cons_of_mem _ hy)
    simp only [gapsFrom, rebuildPositions.go, wrapInt_add_sub_cancel hx, ih x hxs]

theorem rebuildExact.go_gapsFrom_exact (s : List Int) :
    ∀ prev : Int, IsInt prev → 0 ≤ prev → (∀ x ∈ s, IsInt x ∧ 0 ≤ x) →
      rebuildExact.go prev (gapsFrom prev s) = s := by
  induction s with
  | nil => intro prev _ _ _; rfl
  | cons x xs ih =>
    intro prev hp hp0 h
    have hx := h x (List.mem_cons_self _ _)
    have hxs : ∀ y ∈ xs, IsInt y ∧ 0 ≤ y := fun y hy => h y (List.mem_cons_of_mem _ hy)
    have hw : wrapInt (x - prev - 1) = x - prev - 1 := by
      apply wrapInt_of_isInt
      have h1 := hx.1
      have h2 := hx.2
      unfold IsInt at *
      omega
    have he : prev + (x - prev - 1) + 1 = x := by omega
    simp only [gapsFrom, rebuildExact.go, hw, he, ih x hx.1 hx.2 hxs]

theorem rebuildPositions_gaps (p : List Int) (h : ∀ x ∈ p, IsInt x) :
    rebuildPositions (gaps p) = p := by
  cases p with
  | nil => rfl
  | cons s0 t =>
    simp only [gaps, rebuildPositions]
    rw [rebuildPositions.go_gapsFrom t s0 (fun x hx => h x (List.mem_cons_of_mem _ hx))]

theorem rebuildExact_gaps (p : List Int) (h : ∀ x ∈ p, IsInt x ∧ 0 ≤ x) :
    rebuildExact (gaps p) = p := by
  cases p with
  | nil => rfl
  | cons s0 t =>
    have h0 := h s0 (List.mem_cons_self _ _)
    simp only [gaps, rebuildExact]
    rw [rebuildExact.go_gapsFrom_exact t s0 h0.1 h0.2 (fun x hx => h x (List.mem_cons_of_mem _ hx))]

theorem Difference_get (m : GoMap) (hwf : m.WF) (hne : ∀ e ∈ m, e.2 ≠ []) :
    ∃ r, Difference.exec m = some ⟨m, r⟩ ∧ Difference m = some r ∧ r.WF ∧
      ∀ k, r.get k = (m.get k).map gaps := by
  refine ⟨m.foldl (fun m e => m.set e.1 (gaps e.2)) [], Difference.exec_eq m hne, ?_, ?_, ?_⟩
  · simp [Difference, Difference.exec_eq m hne]
  · exact GoMap.wf_foldl_set gaps m [] (by simp [GoMap.WF, GoMap.keys])
  · intro k
    rw [GoMap.get_foldl_set gaps m [] k hwf]
    cases m.get k <;> simp [GoMap.get]

/-! ## The positions recorded by `Query` -/

theorem strictlyIncreasing_append (l : List Int) (p : Int)
    (h : strictlyIncreasing l = true) (hlt : ∀ x ∈ l, x < p) :
    strictlyIncreasing (l ++ [p]) = true := by
  induction l with
  | nil => rfl
  | cons a t ih =>
    cases t with
    | nil =>
      have := hlt a (List.mem_cons_self _ _)
      simp [strictlyIncreasing, this]
    | cons b t' =>
      simp only [strictlyIncreasing, Bool.and_eq_true, decide_eq_true_eq] at h
      have h2 := ih h.2 (fun x hx => hlt x (List.mem_cons_of_mem _ hx))
      simp only [List.cons_append] at h2
      simp only [List.cons_append, strictlyIncreasing, Bool.and_eq_true, decide_eq_true_eq]
      exact ⟨h.1, h2⟩

theorem Query.fold_range (w : Str) (n : Int) (hn : 0 ≤ n) (qs : List Str) :
    ∀ sr : GoMap, (∀ e ∈ sr, ∀ x ∈ e.2, 1 ≤ x ∧ x ≤ n + 1) →
      ∀ e ∈ qs.foldl (Query.inner w (n + 1)) sr, ∀ x ∈ e.2, 1 ≤ x ∧ x ≤ n + 1 := by
  induction qs with
  | nil => intro sr h; exact h
  | cons q qs ih =>
    intro sr h
    refine ih _ ?_
    unfold Query.inner
    split
    · split
      · intro e he x hx
        rcases GoMap.mem_set _ _ _ _ he with h1 | h1
        · subst h1
          simp only [List.mem_singleton] at hx
          omega
        · exact h e h1 x hx
      · rename_i l hl
        intro e he x hx
        rcases GoMap.mem_set _ _ _ _ he with h1 | h1
        · subst h1
          rcases List.mem_append.mp hx with h2 | h2
          · exact h _ (GoMap.mem_of_get _ _ _ hl) x h2
          · simp only [List.mem_singleton] at h2
            omega
        · exact h e h1 x hx
    · exact h

theorem Query.loop_range (queries : List Str) (ws : List Str) :
    ∀ (i : Nat) (sr : GoMap), (∀ e ∈ sr, ∀ x ∈ e.2, 1 ≤ x ∧ x ≤ (i : Int)) →
      ∀ e ∈ Query.loop queries i ws sr, ∀ x ∈ e.2,
        1 ≤ x ∧ x ≤ ((i + ws.length : Nat) : Int) := by
  induction ws with
  | nil => intro i sr h; simpa [Query.loop] using h
  | cons w ws ih =>
    intro i sr h
    have h1 : ∀ e ∈ sr, ∀ x ∈ e.2, 1 ≤ x ∧ x ≤ (i : Int) + 1 := by
      intro e he x hx
      have := h e he x hx
      omega
    have h2 := Query.fold_range w (i : Int) (by omega) queries sr h1
    have h3 := ih (i + 1) _ (by simpa using h2)
    intro e he x hx
    have := h3 e he x hx
    simp only [List.length_cons]
    have e1 : i + 1 + ws.length = i + (ws.length + 1) := by omega
    rw [e1] at this
    exact this

theorem Query.fold_not_mem (w : Str) (p : Int) (qs : List Str) :
    ∀ sr : GoMap, w ∉ qs → qs.foldl (Query.inner w p) sr = sr := by
  induction qs with
  | nil => intro sr _; rfl
  | cons q qs ih =>
    intro sr h
    have h1 : ¬ w = q := fun e => h (by simp [e])
    have h2 : w ∉ qs := fun e => h (List.mem_cons_of_mem _ e)
    simp only [List.foldl_cons, Query.inner, h1, if_false]
    exact ih sr h2

theorem Query.fold_nodup (w : Str) (p : Int) (qs : List Str) (hnd : qs.Nodup) :
    ∀ sr : GoMap, w ∈ qs → qs.foldl (Query.inner w p) sr = Query.inner w p sr w := by
  induction qs with
  | nil => intro sr h; simp at h
  | cons q qs ih =>
    intro sr h
    rw [List.nodup_cons] at hnd
    by_cases hq : w = q
    · subst hq
      rw [List.foldl_cons, Query.fold_not_mem w p qs _ hnd.1]
    · have h2 : w ∈ qs := by
        rcases List.mem_cons.mp h with h3 | h3
        · exact absurd h3 hq
        · exact h3
      rw [List.foldl_cons, ih hnd.2 _ h2]
      simp [Query.inner, hq]

theorem Query.fold_increasing (w : Str) (n : Int) (qs : List Str) (hnd : qs.Nodup)
    (sr : GoMap)
    (h : ∀ e ∈ sr, (∀ x ∈ e.2, x ≤ n) ∧ strictlyIncreasing e.2 = true) :
    ∀ e ∈ qs.foldl (Query.inner w (n + 1)) sr,
      (∀ x ∈ e.2, x ≤ n + 1) ∧ strictlyIncreasing e.2 = true := by
  have old : ∀ e ∈ sr, (∀ x ∈ e.2, x ≤ n + 1) ∧ strictlyIncreasing e.2 = true := by
    intro e he
    refine ⟨fun x hx => ?_, (h e he).2⟩
    have := (h e he).1 x hx
    omega
  by_cases hw : w ∈ qs
  · rw [Query.fold_nodup w (n + 1) qs hnd sr hw]
    unfold Query.inner
    simp only [if_true]
    split
    · intro e he
      rcases GoMap.mem_set _ _ _ _ he with h1 | h1
      · subst h1
        exact ⟨by simp, rfl⟩
      · exact old e h1
    · rename_i l hl
      intro e he
      rcases GoMap.mem_set _ _ _ _ he with h1 | h1
      · subst h1
        have hl' := h _ (GoMap.mem_of_get _ _ _ hl)
        refine ⟨fun x hx => ?_, ?_⟩
        · rcases List.mem_append.mp hx with h2 | h2
          · have := hl'.1 x h2
            omega
          · simp only [List.mem_singleton] at h2
            omega
        · refine strictlyIncreasing_append l (n + 1) hl'.2 (fun x hx => ?_)
          have := hl'.1 x hx
          omega
      · exact old e h1
  · rw [Query.fold_not_mem w (n + 1) qs sr hw]
    exact old

theorem Query.loop_increasing (queries : List Str) (hnd : queries.Nodup) (ws : List Str) :
    ∀ (i : Nat) (sr : GoMap),
      (∀ e ∈ sr, (∀ x ∈ e.2, x ≤ (i : Int)) ∧ strictlyIncreasing e.2 = true) →
      ∀ e ∈ Query.loop queries i ws sr, strictlyIncreasing e.2 = true := by
  induction ws with
  | nil => intro i sr h e he; exact (h e he).2
  | cons w ws ih =>
    intro i sr h
    have h2 := Query.fold_increasing w (i : Int) queries hnd sr h
    exact ih (i + 1) _ (by simpa using h2)

/-- The part of C2 that holds: every recorded position lies between 1 and the
number of words, and when no query is repeated every position list is strictly
increasing. -/
theorem Query.index_positions (queries : List Str) (ws : List Str) :
    (∀ e ∈ Query.index queries ws, ∀ x ∈ e.2, 1 ≤ x ∧ x ≤ (ws.length : Int)) ∧
    (queries.Nodup → ∀ e ∈ Query.index queries ws, strictlyIncreasing e.2 = true) := by
  constructor
  · have := Query.loop_range queries ws 0 [] (by simp)
    simpa [Query.index] using this
  · intro hnd
    exact Query.loop_increasing queries hnd ws 0 [] (by simp)

/-! ## The claims -/

/-- C1, evaluated where it fails: on the text "قال وقال قال" the predicate
answers true on the waw of the middle word, because the rune before it is a
space, so the split gives the three words قال, قال, قال and not قال, وقال,
قال; the position list of "قال" is [1, 2, 3] and not [1, 3], and `Query`
returns {"قال": [1, 0, 0]} and not {"قال": [1, 1]}. -/
theorem C1_waw_after_space_is_boundary :
    words "قال وقال قال".toList = ["قال".toList, "قال".toList, "قال".toList] ∧
    words "قال وقال قال".toList ≠ ["قال".toList, "وقال".toList, "قال".toList] ∧
    (classify MakeFieldsFunc.f MakeFieldsFunc "قال وقال قال".toList).map Prod.snd =
      [false, false, false, true, true, false, false, false, true,
       false, false, false] ∧
    Query.index ["قال".toList] (words "قال وقال قال".toList) =
      [("قال".toList, [1, 2, 3])] ∧
    (Query.index ["قال".toList] (words "قال وقال قال".toList)).get "قال".toList
      ≠ some [1, 3] ∧
    Query ["قال".toList] "قال وقال قال".toList = some [("قال".toList, [1, 0, 0])] ∧
    Query ["قال".toList] "قال وقال قال".toList ≠ some [("قال".toList, [1, 1])] := by
  decide

/-- C2, evaluated where it fails: with the query list ["قال", "قال"] and the
one-word text "قال", the loop of `Query` records position 1 twice, so the
position list [1, 1] is not strictly increasing, and `Query` returns the gap
list [1, -1]. -/
theorem C2_duplicate_query_repeats_position :
    words "قال".toList = ["قال".toList] ∧
    Query.index ["قال".toList, "قال".toList] (words "قال".toList) =
      [("قال".toList, [1, 1])] ∧
    strictlyIncreasing [1, 1] = false ∧
    Query ["قال".toList, "قال".toList] "قال".toList = some [("قال".toList, [1, -1])] := by
  decide

/-- C3: on a map whose lists are all non-empty, `Difference` returns (it does
not panic) a map with the same keys; the list at each key has the length of
the input list, the same first entry, and at every index `i ≥ 1` the entry
`input[i] - input[i-1] - 1` in Go's `int` arithmetic, which is the exact
difference whenever that fits in an `int`; the input map is as it was. -/
theorem C3_difference_lists (positions : GoMap) (hwf : positions.WF)
    (hne : ∀ e ∈ positions, e.2 ≠ []) :
    ∃ st, Difference.exec positions = some st ∧ Difference positions = some st.m ∧
      st.positions = positions ∧
      (∀ k, k ∈ st.m.keys ↔ k ∈ positions.keys) ∧
      ∀ k s, positions.get k = some s →
        ∃ d, st.m.get k = some d ∧ d.length = s.length ∧ d[0]? = s[0]? ∧
          ∀ i a b, 1 ≤ i → s[i - 1]? = some a → s[i]? = some b →
            d[i]? = some (wrapInt (b - a - 1)) ∧
            (IsInt (b - a - 1) → d[i]? = some (b - a - 1)) := by
  obtain ⟨r, h1, h2, _, h4⟩ := Difference_get positions hwf hne
  refine ⟨⟨positions, r⟩, h1, h2, rfl, ?_, ?_⟩
  · intro k
    rw [← GoMap.get_isSome_iff, ← GoMap.get_isSome_iff, h4 k]
    cases positions.get k <;> simp
  · intro k s hs
    refine ⟨gaps s, by simp [h4 k, hs], gaps_length s, ?_, ?_⟩
    · cases s <;> simp [gaps]
    · intro i a b hi ha hb
      have key : (gaps s)[i]? = some (wrapInt (b - a - 1)) := by
        cases s with
        | nil => simp at hb
        | cons s0 t =>
          obtain ⟨j, rfl⟩ : ∃ j, i = j + 1 := ⟨i - 1, by omega⟩
          simp only [List.getElem?_cons_succ] at hb
          simp only [Nat.add_sub_cancel] at ha
          simp only [gaps, List.getElem?_cons_succ, gapsFrom_getElem?, hb, Option.map_some',
            List.getD_eq_getElem?_getD, ha, Option.getD_some]
      refine ⟨key, fun hfit => ?_⟩
      rw [key, wrapInt_of_isInt hfit]

/-- C3 at the map {"قال": [1, 3, 4], "كتاب": [2]}. -/
theorem C3_difference_lists_witness :
    GoMap.WF [("قال".toList, [1, 3, 4]), ("كتاب".toList, [2])] ∧
    ∃ st, Difference.exec [("قال".toList, [1, 3, 4]), ("كتاب".toList, [2])] = some st ∧
      Difference [("قال".toList, [1, 3, 4]), ("كتاب".toList, [2])] = some st.m ∧
      st.positions = [("قال".toList, [1, 3, 4]), ("كتاب".toList, [2])] :=
  ⟨by decide,
    (C3_difference_lists [("قال".toList, [1, 3, 4]), ("كتاب".toList, [2])] (by decide)
      (by decide)).imp fun _ h => ⟨h.1, h.2.1, h.2.2.1⟩⟩

/-- C4: for a non-empty list `p` of Go integers, the cumulative sum
`position[0] = g[0]`, `position[i] = position[i-1] + g[i] + 1` over the list
`g` that `Difference` computes for `p` gives `p` again, in Go's `int`
arithmetic, and over the integers when the entries of `p` are not negative;
and two well-formed maps of non-empty lists of Go integers on which
`Difference` returns the same map are the same map. -/
theorem C4_difference_invertible (p : List Int) (hp : p ≠ []) (hpi : ∀ x ∈ p, IsInt x)
    (m₁ m₂ : GoMap) (hwf₁ : m₁.WF) (hwf₂ : m₂.WF)
    (hok₁ : ∀ e ∈ m₁, e.2 ≠ [] ∧ ∀ x ∈ e.2, IsInt x)
    (hok₂ : ∀ e ∈ m₂, e.2 ≠ [] ∧ ∀ x ∈ e.2, IsInt x) :
    (∃ g, Difference.list p = some g ∧ rebuildPositions g = p ∧
      ((∀ x ∈ p, 0 ≤ x) → rebuildExact g = p)) ∧
    ∃ r₁ r₂, Difference m₁ = some r₁ ∧ Difference m₂ = some r₂ ∧
      ((∀ k, r₁.get k = r₂.get k) → ∀ k, m₁.get k = m₂.get k) := by
  constructor
  · exact ⟨gaps p, Difference.list_eq_gaps hp, rebuildPositions_gaps p hpi,
      fun h0 => rebuildExact_gaps p (fun x hx => ⟨hpi x hx, h0 x hx⟩)⟩
  · obtain ⟨r₁, _, h₁, _, g₁⟩ := Difference_get m₁ hwf₁ (fun e he => (hok₁ e he).1)
    obtain ⟨r₂, _, h₂, _, g₂⟩ := Difference_get m₂ hwf₂ (fun e he => (hok₂ e he).1)
    refine ⟨r₁, r₂, h₁, h₂, fun heq k => ?_⟩
    have hk := heq k
    rw [g₁ k, g₂ k] at hk
    cases e₁ : m₁.get k with
    | none =>
      cases e₂ : m₂.get k with
      | none => rfl
      | some q => rw [e₁, e₂] at hk; simp at hk
    | some q₁ =>
      cases e₂ : m₂.get k with
      | none => rw [e₁, e₂] at hk; simp at hk
      | some q₂ =>
        rw [e₁, e₂] at hk
        simp only [Option.map_some', Option.some.injEq] at hk
        have i₁ := (hok₁ _ (GoMap.mem_of_get m₁ k q₁ e₁)).2
        have i₂ := (hok₂ _ (GoMap.mem_of_get m₂ k q₂ e₂)).2
        have := congrArg rebuildPositions hk
        rw [rebuildPositions_gaps q₁ i₁, rebuildPositions_gaps q₂ i₂] at this
        rw [this]

/-- C4 at the list [1, 3, 4] and the maps {"قال": [1, 3, 4]} and
{"قال": [1, 3, 4]}. -/
theorem C4_difference_invertible_witness :
    Difference.list [1, 3, 4] = some [1, 1, 0] ∧
    ∃ g, Difference.list [1, 3, 4] = some g ∧ rebuildPositions g = [1, 3, 4] ∧
      ((∀ x ∈ ([1, 3, 4] : List Int), 0 ≤ x) → rebuildExact g = [1, 3, 4]) :=
  ⟨by decide,
    (C4_difference_invertible [1, 3, 4] (by decide) (by decide)
      [("قال".toList, [1, 3, 4])] [("قال".toList, [1, 3, 4])] (by decide) (by decide)
      (by decide) (by decide)).1⟩

/-- C5: when `M` holds no ')' and `R` is empty or begins with ')', the text
`A ( M R` splits into the same words as `A ( R`, and `A ( M` into the same
words as `A`: the runes inside a marker give no word and nothing follows an
unclosed '('. On "الر (1) كتاب أنزلناه" the words are الر, كتاب, أنزلناه, and
for the query ["كتاب"] the position index and the result of `Query` are both
{"كتاب": [2]}. -/
theorem C5_marker_contributes_nothing (A M R : Str) (hM : ')' ∉ M)
    (hR : R = [] ∨ R.head? = some ')') :
    words (A ++ ['('] ++ M ++ R) = words (A ++ ['('] ++ R) ∧
    words (A ++ ['('] ++ M) = words A ∧
    words "الر (1) كتاب أنزلناه".toList =
      ["الر".toList, "كتاب".toList, "أنزلناه".toList] ∧
    Query.index ["كتاب".toList] (words "الر (1) كتاب أنزلناه".toList) =
      [("كتاب".toList, [2])] ∧
    Query ["كتاب".toList] "الر (1) كتاب أنزلناه".toList = some [("كتاب".toList, [2])] := by
  have hR' : R = [] ∨ ∃ R', R = ')' :: R' := by
    rcases hR with h | h
    · exact Or.inl h
    · cases R with
      | nil => exact Or.inl rfl
      | cons r R' =>
        simp only [List.head?_cons, Option.some.injEq] at h
        exact Or.inr ⟨R', by rw [h]⟩
  refine ⟨?_, ?_, by decide, by decide, by decide⟩
  · have := FieldsFunc.loop_marker A M R hM hR' MakeFieldsFunc []
    simpa [words, FieldsFunc] using this
  · have h1 := FieldsFunc.loop_marker A M [] hM (Or.inl rfl) MakeFieldsFunc []
    have h2 := FieldsFunc.loop_open_paren A MakeFieldsFunc []
    simp only [List.append_nil] at h1
    simpa [words, FieldsFunc] using h1.trans h2

/-- C5 at A = "الر ", M = "1", R = ") كتاب أنزلناه". -/
theorem C5_marker_contributes_nothing_witness :
    ')' ∉ "1".toList ∧
    words ("الر ".toList ++ ['('] ++ "1".toList ++ ") كتاب أنزلناه".toList) =
      words ("الر ".toList ++ ['('] ++ ") كتاب أنزلناه".toList) :=
  ⟨by decide,
    (C5_marker_contributes_nothing "الر ".toList "1".toList ") كتاب أنزلناه".toList
      (by decide) (Or.inr (by decide))).1⟩

/-- C6: `Query` returns (it does not panic); a string is a key of the map it
returns exactly when it is in the query list and is one of the words of the
text; no list of the index, before or after `Difference`, is empty; an empty
query list and an empty text both give the empty map. -/
theorem C6_query_keys (queries : List Str) (fileBytes : Str) :
    ∃ m, Query queries fileBytes = some m ∧
      (∀ q, q ∈ m.keys ↔ q ∈ queries ∧ q ∈ words fileBytes) ∧
      (∀ q l, m.get q = some l → l ≠ []) ∧
      (∀ e ∈ Query.index queries (words fileBytes), e.2 ≠ []) ∧
      Query [] fileBytes = some [] ∧
      Query queries [] = some [] := by
  obtain ⟨hwf, hne, hkeys⟩ := Query.index_inv queries (words fileBytes)
  obtain ⟨r, _, h2, _, h4⟩ := Difference_get _ hwf hne
  refine ⟨r, h2, ?_, ?_, hne, ?_, rfl⟩
  · intro q
    rw [← hkeys q, ← GoMap.get_isSome_iff, ← GoMap.get_isSome_iff, h4 q]
    cases GoMap.get (Query.index queries (words fileBytes)) q <;> simp
  · intro q l hl
    rw [h4 q] at hl
    cases hs : GoMap.get (Query.index queries (words fileBytes)) q with
    | none => rw [hs] at hl; simp at hl
    | some s =>
      rw [hs] at hl
      simp only [Option.map_some', Option.some.injEq] at hl
      have hs' : s ≠ [] := hne _ (GoMap.mem_of_get _ _ _ hs)
      intro hnil
      have := gaps_length s
      rw [hl, hnil] at this
      exact hs' (List.length_eq_zero.mp this.symm)
  · have hidx : ∀ (ws : List Str) (i : Nat) (sr : GoMap), Query.loop [] i ws sr = sr := by
      intro ws
      induction ws with
      | nil => intro i sr; rfl
      | cons w ws ih => intro i sr; simp [Query.loop, ih]
    simp [Query, Query.index, hidx, Difference, Difference.exec, Difference.run]

/-- C7: no word of the split is empty; every word, with each of its runes
marked as not a boundary, is a contiguous part of the text marked with the
answers of the predicate, so no rune of a word was classified as a boundary;
and no word holds a space, a newline, a carriage return, '(' or ')'. -/
theorem C7_words_hold_no_boundary (T : Str) :
    (∀ tok ∈ words T, tok ≠ []) ∧
    (∀ tok ∈ words T,
      (tok.map fun c => (c, false)) <:+: classify MakeFieldsFunc.f MakeFieldsFunc T) ∧
    (∀ tok ∈ words T, ∀ c ∈ tok,
      c ≠ ' ' ∧ c ≠ '\n' ∧ c ≠ '\r' ∧ c ≠ '(' ∧ c ≠ ')') := by
  have key : ∀ tok ∈ words T, tok ≠ [] ∧
      (tok.map fun c => (c, false)) <:+: classify MakeFieldsFunc.f MakeFieldsFunc T := by
    intro tok h
    have := FieldsFunc.loop_mem MakeFieldsFunc.f T MakeFieldsFunc [] tok h
    simpa using this
  refine ⟨fun tok h => (key tok h).1, fun tok h => (key tok h).2, ?_⟩
  intro tok h c hc
  have hmem : (c, false) ∈ classify MakeFieldsFunc.f MakeFieldsFunc T :=
    (key tok h).2.subset (List.mem_map.mpr ⟨c, hc, rfl⟩)
  have hb := classify_boundary T MakeFieldsFunc c false hmem
  refine ⟨?_, ?_, ?_, ?_, ?_⟩ <;> intro hcon <;> simp [hcon] at hb

/-- C8, evaluated where it fails: for the query "a.b" on the text "axb ",
in which "a.b" does not occur, `ColorWords` adds a tag over the runes 0 to 3;
and for the query "*" the construction of the pattern panics. -/
theorem C8_query_read_as_pattern :
    ¬ ("a.b".toList <:+: "axb ".toList) ∧
    ColorWords "axb ".toList ["a.b".toList] = .ok [⟨"255 60 60", 0, 3⟩] ∧
    MustCompile ("*".toList ++ ['[', ' ', '\n', ']']) = .panic ∧
    ColorWords "axb ".toList ["*".toList] = .panic := by
  refine ⟨by decide, by decide, by decide, by decide⟩

/-- C9: for queries without special characters `ColorWords` returns (it does
not panic), and every tag it adds comes from a query `q` and a match of the
pattern of `q` at a byte offset `b` of the text without carriage returns: the
`start` runes of the text before the tag take exactly `b` bytes, the end is
`start` plus the number of runes of `q`, and the runes of the text from
`start` to the end are those of `q`, followed by a space or a newline. -/
theorem C9_spans_in_runes (fileBytes : Str) (queries : List Str)
    (hq : ∀ q ∈ queries, ∀ c ∈ q, c ∉ metaChars) :
    ∃ tags, ColorWords fileBytes queries = .ok tags ∧
      ∀ t ∈ tags, ∃ q ∈ queries, ∃ re,
        MustCompile (q ++ ['[', ' ', '\n', ']']) = .ok re ∧
        ∃ v ∈ FindAllStringIndex re (removeCR fileBytes),
          t.selStart ≤ (removeCR fileBytes).length ∧
          byteLen ((removeCR fileBytes).take t.selStart) = v.1 ∧
          t.selEnd = t.selStart + q.length ∧
          t.selEnd - t.selStart = q.length ∧
          ((removeCR fileBytes).drop t.selStart).take q.length = q ∧
          ∃ c, (removeCR fileBytes)[t.selEnd]? = some c ∧ (c = ' ' ∨ c = '\n') := by
  have hall : ∀ q ∈ queries, ∀ j, ∃ ts,
      ColorWords.query (removeCR fileBytes) j q = .ok ts := by
    intro q hmem j
    obtain ⟨color, _, h⟩ := ColorWords.query_literal (removeCR fileBytes) j q (hq q hmem)
    exact ⟨_, h⟩
  obtain ⟨tags, htags, hmem⟩ := ColorWords.loop_ok (removeCR fileBytes) queries hall 0
  refine ⟨tags, htags, ?_⟩
  intro t ht
  obtain ⟨q, hqm, j, ts, hts, htm⟩ := hmem t ht
  obtain ⟨color, _, h⟩ := ColorWords.query_literal (removeCR fileBytes) j q (hq q hqm)
  rw [h] at hts
  simp only [Result.ok.injEq] at hts
  subst hts
  obtain ⟨v, hv, rfl⟩ := List.mem_map.mp htm
  obtain ⟨n, h1, h2, h3, _⟩ := FindAllStringIndex.loop_mem_match _ _ _ _ _ hv
  rw [Nat.zero_add] at h2
  have hn : RuneCountInString.upTo (removeCR fileBytes) v.1 = some n := by
    rw [h2]; exact RuneCountInString.upTo_take _ n h1
  obtain ⟨m1, c, m2, m3⟩ := Regexp.matchAt_literal q _ h3
  refine ⟨q, hqm, literalPattern q, MustCompile_literal q (hq q hqm), v, hv, ?_⟩
  simp only [hn, Option.getD_some]
  refine ⟨h1, h2.symm, trivial, by omega, m1, c, ?_, m3⟩
  rw [← m2, List.getElem?_drop]

/-- C9 at the text "قال وقال قال\n", whose runes take two bytes each but
the spaces, and the query "قال". -/
theorem C9_spans_in_runes_witness :
    ColorWords "قال وقال قال\n".toList ["قال".toList] =
      .ok [⟨"255 60 60", 0, 3⟩, ⟨"255 60 60", 5, 8⟩, ⟨"255 60 60", 9, 12⟩] ∧
    FindAllStringIndex (literalPattern "قال".toList) "قال وقال قال\n".toList =
      [(0, 7), (9, 16), (16, 23)] ∧
    ∃ tags, ColorWords "قال وقال قال\n".toList ["قال".toList] = .ok tags :=
  ⟨by decide, by decide,
    (C9_spans_in_runes "قال وقال قال\n".toList ["قال".toList] (by decide)).imp
      fun _ h => h.1⟩

/-- C10, evaluated where it fails: on the one-colour palette ["0 0 0"] the
method `Elt` returns at index 0 the first colour of the package variable
`colors`, not of its receiver, and on a palette of seven colours it panics at
index 6; on the package variable itself the indexing is circular. -/
theorem C10_elt_reads_package_palette :
    Colors.Elt ["0 0 0"] 0 = some "255 60 60" ∧
    Colors.Elt ["1", "2", "3", "4", "5", "6", "7"] 6 = none ∧
    Colors.Elt colors 0 = some "255 60 60" ∧
    Colors.Elt colors 6 = some "255 60 60" ∧
    Colors.Elt colors 7 = Colors.Elt colors 1 := by
  decide

end QueryGo
